import Mathlib

/-!
Verification of the xenstore-rs specification against a shallow embedding of
the repository's source.  The embedding translates, definition by definition:

* `src/src/store.rs`     — permissions, nodes, change sets, `Store::apply`,
  `Store::get_node`, `Store::construct_node`, `Store::write`;
* `src/src/watch.rs`     — `WPath`, `Watch`, `Watch::matches`, `WatchList::fire`;
* `src/libxenstore/src/transaction.rs` — `TransactionList::{get, put, end}`;
* `src/libxenstore/src/wire.rs`        — `Header::parse`, `Body::parse`,
  `XenStoreCodec::decode`, `Body::len`;
* `src/libxenstore/src/message/egress.rs`  — the default `Egress::encode`,
  `ErrorMsg`, `WatchEvent::encode`;
* `src/libxenstore/src/message/ingress.rs` — the request parser dispatch;
* `src/libxenstore/src/message/mod.rs`     — the TRANSACTION_END handler.

Modelling conventions:

* Rust `Path` (a `PathBuf`) is modelled by its list of components
  (`/a/b` ↦ `["a", "b"]`, the root `/` ↦ `[]`); `parent` is `dropLast`,
  `basename` is `getLast?`, exactly as `std::path` behaves on the canonical
  absolute paths this code manipulates.
* Rust `HashMap` is modelled by an association list with unique keys kept in
  key order.  A `HashMap`'s iteration order is a function of its contents and
  is unrelated to insertion order; keeping the list key-ordered realizes one
  such content-determined order.
* Machine integers are `Nat`; the only overflowing operation in scope is the
  `Wrapping<u64>` generation increment, written `% 2 ^ 64` explicitly.
* A Rust panic (`unwrap` on `None`, out-of-bounds index, `unreachable!`) is
  modelled by `Option`: `none` marks a panicking execution.
* Byte strings are `List Nat`; all strings in scope are ASCII, so a
  character's code point is its byte.
-/

namespace Xenstore

/-! ## Basic wire types and constants (`src/libxenstore/src/wire.rs`) -/

abbrev DomainId := Nat
abbrev ReqId := Nat
abbrev TxId := Nat
abbrev Value := String
abbrev Basename := String

def XS_DIRECTORY : Nat := 1
def XS_READ : Nat := 2
def XS_GET_PERMS : Nat := 3
def XS_WATCH : Nat := 4
def XS_UNWATCH : Nat := 5
def XS_TRANSACTION_START : Nat := 6
def XS_TRANSACTION_END : Nat := 7
def XS_RELEASE : Nat := 9
def XS_GET_DOMAIN_PATH : Nat := 10
def XS_WRITE : Nat := 11
def XS_MKDIR : Nat := 12
def XS_RM : Nat := 13
def XS_SET_PERMS : Nat := 14
def XS_WATCH_EVENT : Nat := 15
def XS_ERROR : Nat := 16
def XS_RESUME : Nat := 18
def XS_RESTRICT : Nat := 20

def HEADER_SIZE : Nat := 16
def BODY_SIZE : Nat := 4096

/-- The error enum of `src/src/error.rs`.  Each Rust variant carries a
human-readable `String` that is used only for logging; `description()`
(the name that goes on the wire) depends only on the variant, so the
embedding keeps the variants alone. -/
inductive Err
  | EINVAL
  | EACCES
  | EEXIST
  | EISDIR
  | ENOENT
  | ENOMEM
  | ENOSPC
  | EIO
  | ENOTEMPTY
  | ENOSYS
  | EROFS
  | EBUSY
  | EAGAIN
  | EISCONN
  | E2BIG
  deriving DecidableEq, Repr

/-- `error::Error::description` of `src/src/error.rs`: maps each variant to
the `XSE_*` wire name. -/
def Err.description : Err → String
  | .EINVAL => "EINVAL"
  | .EACCES => "EACCES"
  | .EEXIST => "EEXIST"
  | .EISDIR => "EISDIR"
  | .ENOENT => "ENOENT"
  | .ENOMEM => "ENOMEM"
  | .ENOSPC => "ENOSPC"
  | Err.EIO => "EIO"
  | .ENOTEMPTY => "ENOTEMPTY"
  | .ENOSYS => "ENOSYS"
  | .EROFS => "EROFS"
  | .EBUSY => "EBUSY"
  | .EAGAIN => "EAGAIN"
  | .EISCONN => "EISCONN"
  | .E2BIG => "E2BIG"

/-! ## Paths (`src/src/path.rs`), as component lists -/

abbrev Path := List String

/-- `Path::parent`: `None` on the root, otherwise the path with the last
component removed. -/
def Path.parent (p : Path) : Option Path :=
  match p with
  | [] => none
  | _ :: _ => some p.dropLast

/-- `Path::basename`: the last component. -/
def Path.basename (p : Path) : Option Basename := p.getLast?

/-- The `ParentIterator` of `src/src/path.rs`: yields the path itself, then
each ancestor, ending with the root.  Recursion is on the reversed component
list (`parent` = `dropLast` on the component list = `tail` on its reverse). -/
def pathIterAux : List String → List Path
  | [] => [[]]
  | x :: rest => (x :: rest).reverse :: pathIterAux rest

def pathIter (p : Path) : List Path := pathIterAux p.reverse

/-- Render a component list back to the byte representation held by the Rust
`PathBuf` (`/`-separated, leading `/`). -/
def Path.render (p : Path) : String :=
  match p with
  | [] => "/"
  | _ => String.join (p.map (fun c => "/" ++ c))

/-! ## The key-ordered association-list model of `HashMap<Path, _>` -/

/-- Strict lexicographic order on character lists by code point. -/
def strLtAux : List Char → List Char → Bool
  | [], [] => false
  | [], _ :: _ => true
  | _ :: _, [] => false
  | c :: cs, d :: ds => if c.toNat = d.toNat then strLtAux cs ds else decide (c.toNat < d.toNat)

/-- Strict lexicographic order on strings. -/
def strLt (a b : String) : Bool := strLtAux a.data b.data

/-- Strict lexicographic order on component lists, used only to keep the map
model's iteration order a function of its contents (as a `HashMap`'s is). -/
def pathLt : Path → Path → Bool
  | [], [] => false
  | [], _ :: _ => true
  | _ :: _, [] => false
  | a :: as_, b :: bs => if a = b then pathLt as_ bs else strLt a b

/-- `HashMap::insert` (replaces any existing entry for the key). -/
def mapInsert {α : Type} (k : Path) (v : α) : List (Path × α) → List (Path × α)
  | [] => [(k, v)]
  | (k2, v2) :: rest =>
    if k = k2 then (k, v) :: rest
    else if pathLt k k2 then (k, v) :: (k2, v2) :: rest
    else (k2, v2) :: mapInsert k v rest

/-- `HashMap::get`. -/
def mapGet {α : Type} (k : Path) (m : List (Path × α)) : Option α :=
  (m.find? (fun e => decide (e.1 = k))).map (·.2)

/-- `HashMap::remove`. -/
def mapRemove {α : Type} (k : Path) (m : List (Path × α)) : List (Path × α) :=
  m.filter (fun e => decide (e.1 ≠ k))

/-- Key uniqueness of the map model (every `HashMap` has it). -/
def keysNodup {α : Type} (m : List (Path × α)) : Prop :=
  (m.map Prod.fst).Nodup

/-! ## Permissions (`src/src/store.rs`) -/

def DOM0_DOMAIN_ID : DomainId := 0

def PERM_NONE : Nat := 0
def PERM_READ : Nat := 1
def PERM_WRITE : Nat := 2
def PERM_OWNER : Nat := 4

structure Permission where
  id : DomainId
  perm : Nat
  deriving DecidableEq, Repr

/-- `permissions[0]` of the Rust code; Rust panics on an empty list, which
cannot happen for store nodes (their lists are non-empty by construction). -/
def permsHead (ps : List Permission) : Permission :=
  ps.headD ⟨DOM0_DOMAIN_ID, PERM_NONE⟩

/-- The free function `perms_ok` of `src/src/store.rs` (lines 54-66). -/
def perms_ok (dom_id : DomainId) (permissions : List Permission) (perm : Nat) : Bool :=
  let mask := PERM_READ ||| PERM_WRITE ||| PERM_OWNER
  if dom_id = DOM0_DOMAIN_ID ∨ (permsHead permissions).id = dom_id then
    (mask &&& perm) = perm
  else
    match permissions.find? (fun p => decide (p.id = dom_id)) with
    | some p => (p.perm &&& perm) = perm
    | none => ((permsHead permissions).perm &&& perm) = perm

/-! ## Nodes, changes, change sets, the store (`src/src/store.rs`) -/

structure Node where
  path : Path
  value : Value
  children : List Basename
  permissions : List Permission
  deriving DecidableEq, Repr

/-- `HashSet::insert` on the children set (order of the model list is
immaterial; membership is what the code observes). -/
def insertChild (c : Basename) (cs : List Basename) : List Basename :=
  if c ∈ cs then cs else c :: cs

inductive Change
  | Write (node : Node)
  | Remove (node : Node)
  deriving DecidableEq, Repr

/-- `Change::path`. -/
def Change.path : Change → Path
  | .Write n => n.path
  | .Remove n => n.path

structure ChangeSet where
  parent : Nat
  changes : List (Path × Change)
  deriving DecidableEq, Repr

/-- `ChangeSet::insert`: keyed by the change's path, replacing any earlier
entry for that path. -/
def ChangeSet.insert (cs : ChangeSet) (c : Change) : ChangeSet :=
  { cs with changes := mapInsert c.path c cs.changes }

structure Store where
  generation : Nat
  store : List (Path × Node)
  deriving DecidableEq, Repr

/-- `ChangeSet::new`. -/
def ChangeSet.new (s : Store) : ChangeSet := { parent := s.generation, changes := [] }

inductive AppliedChange
  | Write (path : Path) (permissions : List Permission)
  | Remove (path : Path)
  | IntroduceDomain
  | ReleaseDomain
  deriving DecidableEq, Repr

/-- `AppliedChange::perms_ok` (lines 121-130): delegates to the free
`perms_ok` on a `Write`'s recorded permissions, `true` otherwise. -/
def AppliedChange.permsOk (c : AppliedChange) (dom_id : DomainId) (perm : Nat) : Bool :=
  match c with
  | .Write _ permissions => perms_ok dom_id permissions perm
  | .Remove _ => true
  | .IntroduceDomain => true
  | .ReleaseDomain => true

/-- `manual_entry` of `src/src/store.rs`. -/
def manual_entry (store : List (Path × Node)) (name : Path) (child_list : List Basename) :
    List (Path × Node) :=
  mapInsert name
    { path := name, value := "", children := child_list,
      permissions := [⟨DOM0_DOMAIN_ID, PERM_NONE⟩] } store

/-- `Store::new`: `/` with child `tool`, `/tool` with child `xenstored`,
`/tool/xenstored`, all Dom0-owned with mode `None`. -/
def Store.new : Store :=
  { generation := 0,
    store :=
      manual_entry (manual_entry (manual_entry [] [] ["tool"])
        ["tool"] ["xenstored"]) ["tool", "xenstored"] [] }

/-- The image of one changeset entry in the applied-change list. -/
def Change.toApplied (e : Path × Change) : AppliedChange :=
  match e.2 with
  | .Write n => .Write e.1 n.permissions
  | .Remove _ => .Remove e.1

/-- The loop body of `Store::apply`: insert/remove the node and append the
corresponding `AppliedChange`. -/
def applyStep (acc : List (Path × Node) × List AppliedChange) (e : Path × Change) :
    List (Path × Node) × List AppliedChange :=
  match e.2 with
  | .Write n => (mapInsert e.1 n acc.1, acc.2 ++ [AppliedChange.Write e.1 n.permissions])
  | .Remove _ => (mapRemove e.1 acc.1, acc.2 ++ [AppliedChange.Remove e.1])

/-- `Store::apply` (lines 167-189): `None` on a generation mismatch, else the
entries of the changeset are applied in the map's iteration order and the
generation is bumped (a `Wrapping<u64>` increment). -/
def Store.apply (s : Store) (cs : ChangeSet) : Option (Store × List AppliedChange) :=
  if s.generation ≠ cs.parent then none
  else
    let r := cs.changes.foldl applyStep (s.store, [])
    some ({ generation := (s.generation + 1) % 2 ^ 64, store := r.1 }, r.2)

/-- `Store::get_node` (lines 191-219): overlay first (`Remove` entries hide
the backing node), then the backing store, then the permission check. -/
def Store.get_node (s : Store) (cs : ChangeSet) (dom_id : DomainId) (path : Path)
    (perm : Nat) : Except Err Node :=
  let node : Except Err Node :=
    match mapGet path cs.changes with
    | some (.Write n) => .ok n
    | some (.Remove _) => .error .ENOENT
    | none =>
      match mapGet path s.store with
      | some n => .ok n
      | none => .error .ENOENT
  match node with
  | .error e => .error e
  | .ok n => if ¬ perms_ok dom_id n.permissions perm then .error .EACCES else .ok n

def isEnoent {α : Type} : Except Err α → Bool
  | .error .ENOENT => true
  | _ => false

deriving instance DecidableEq for Except

example : Store.new.get_node (ChangeSet.new Store.new) 0 [] PERM_WRITE =
    .ok { path := [], value := "", children := ["tool"],
          permissions := [⟨0, PERM_NONE⟩] } := by decide

example : isEnoent (Store.new.get_node (ChangeSet.new Store.new) 0 ["a"] PERM_WRITE) = true := by
  decide

/-! ## Node construction (`Store::construct_node`, `Store::write`) -/

/-- The clone-parent-permissions-and-rewrite-owner step of
`Store::construct_node` (lines 270-276): `permissions[0].id = dom_id` when
the creating domain is unprivileged.  The empty case cannot be reached from
store nodes (Rust would panic indexing `[0]`). -/
def setOwner (dom_id : DomainId) : List Permission → List Permission
  | [] => []
  | p :: rest => { p with id := dom_id } :: rest

def inheritPerms (dom_id : DomainId) (ps : List Permission) : List Permission :=
  if dom_id ≠ DOM0_DOMAIN_ID then setOwner dom_id ps else ps

/-- The `parent.children.insert(basename)` step of the creation loop (the
basename insert is skipped when the path has none). -/
def childAdded (par : Node) (p : Path) : Node :=
  match p.basename with
  | some bn => { par with children := insertChild bn par.children }
  | none => par

/-- The fresh node built by one iteration of the creation loop: the new
path, an empty value, no children, the immediate parent's permissions with
the owner slot rewritten for an unprivileged creator. -/
def newNode (dom_id : DomainId) (p : Path) (par : Node) : Node :=
  { path := p, value := "", children := [],
    permissions := inheritPerms dom_id par.permissions }

/-- One iteration of the creation loop of `Store::construct_node`
(lines 262-288): take the front of the accumulator as the immediate parent,
record the new basename in its child set, create the node with the parent's
(owner-rewritten) permissions and an empty value, and push it at the front.
The accumulator is never empty (it starts as `[parent]`); the `[]` branch is
unreachable. -/
def construct_step (dom_id : DomainId) (lst : List Node) (p : Path) : List Node :=
  match lst with
  | [] => []
  | par :: rest => newNode dom_id p par :: childAdded par p :: rest

/-- `Store::construct_node` (lines 222-296).  `none` models the Rust panics:
`parent().unwrap()` when the shallowest missing path is the root, and the
`unreachable!()` arm.  The source returns the chain deepest-node first,
ending with the (child-augmented) nearest existing ancestor. -/
def Store.construct_node (s : Store) (cs : ChangeSet) (dom_id : DomainId) (path : Path)
    (value : Value) : Option (Except Err (List Node)) :=
  let paths_to_create :=
    (pathIter path).takeWhile (fun p => isEnoent (s.get_node cs dom_id p PERM_WRITE))
  match paths_to_create.getLast? with
  | none => some (.error .EACCES)
  | some shallowest =>
    match shallowest.parent with
    | none => none
    | some parent_path =>
      match s.get_node cs dom_id parent_path PERM_WRITE with
      | .ok parent =>
        let lst := paths_to_create.reverse.foldl (construct_step dom_id) [parent]
        match lst with
        | [] => none
        | n :: rest => some (.ok ({ n with value := value } :: rest))
      | .error .ENOENT => none
      | .error e => some (.error e)

/-- `Store::write` (lines 298-326): replace the value when the node exists
and is writable; on any lookup error construct the missing chain and insert
a `Write` entry for every returned node (deepest first, as the source
iterates the `LinkedList`). -/
def Store.write (s : Store) (cs : ChangeSet) (dom_id : DomainId) (path : Path)
    (value : Value) : Option (Except Err ChangeSet) :=
  match s.get_node cs dom_id path PERM_WRITE with
  | .ok node => some (.ok (cs.insert (.Write { node with value := value })))
  | .error _ =>
    match s.construct_node cs dom_id path value with
    | none => none
    | some (.error e) => some (.error e)
    | some (.ok nodes) =>
      some (.ok (nodes.foldl (fun acc n => acc.insert (.Write n)) cs))

/-! ## Watches (`src/src/watch.rs`) -/

structure ConnId where
  token : Nat
  dom_id : DomainId
  deriving DecidableEq, Repr

inductive WPath
  | Normal (p : Path)
  | IntroduceDomain
  | ReleaseDomain
  deriving DecidableEq, Repr

structure Watch where
  conn : ConnId
  node : WPath
  token : WPath
  deriving DecidableEq, Repr

/-- `Watch::matches` (lines 59-68): a `Write` matches a `Normal` watch iff
the paths are equal and the watcher's domain can read under the recorded
permissions; the sentinel changes match their sentinel watches. -/
def Watch.matches (w : Watch) (change : AppliedChange) : Bool :=
  match change, w.node with
  | .Write cpath perms, .Normal wpath =>
    decide (cpath = wpath) && AppliedChange.permsOk (.Write cpath perms) w.conn.dom_id PERM_READ
  | .IntroduceDomain, .IntroduceDomain => true
  | .ReleaseDomain, .ReleaseDomain => true
  | _, _ => false

/-- `WatchList::fire_single`: the set of registered watches matching one
applied change (the `HashSet` is modelled as a list of distinct watches). -/
def fire_single (watches : List Watch) (single : AppliedChange) : List Watch :=
  watches.filter (fun w => w.matches single)

/-- `WatchList::fire` (lines 118-126): union over the applied changes of the
per-change match sets; collecting into a `HashSet` deduplicates, modelled by
`dedup`.  `None` (a failed apply) fires nothing. -/
def WatchList.fire (watches : List Watch) (applied_changes : Option (List AppliedChange)) :
    List Watch :=
  match applied_changes with
  | some changes => (changes.flatMap (fire_single watches)).dedup
  | none => []

/-! ## Transactions (`src/libxenstore/src/transaction.rs`) -/

def ROOT_TRANSACTION : TxId := 0

structure TransactionR where
  conn : ConnId
  changes : ChangeSet
  deriving DecidableEq, Repr

/-- `HashMap::get` on the transaction registry. -/
def txLookup (tx_id : TxId) (l : List (TxId × TransactionR)) : Option TransactionR :=
  (l.find? (fun e => decide (e.1 = tx_id))).map (·.2)

/-- `HashMap::remove` on the transaction registry. -/
def txRemoveKey (tx_id : TxId) (l : List (TxId × TransactionR)) : List (TxId × TransactionR) :=
  l.filter (fun e => decide (e.1 ≠ tx_id))

/-- In-place update used by `get_mut` in `TransactionList::put`. -/
def txReplace (tx_id : TxId) (t : TransactionR) (l : List (TxId × TransactionR)) :
    List (TxId × TransactionR) :=
  l.map (fun e => if e.1 = tx_id then (tx_id, t) else e)

inductive TransactionStatus
  | Success
  | Failure
  deriving DecidableEq, Repr

/-- `TransactionList::get` (lines 92-103): `ENOENT` when the id is unknown,
`ENOENT` again when the recorded owner connection differs from the caller. -/
def TransactionList.get (l : List (TxId × TransactionR)) (conn : ConnId) (tx_id : TxId) :
    Except Err ChangeSet :=
  match txLookup tx_id l with
  | none => .error .ENOENT
  | some t => if t.conn ≠ conn then .error .ENOENT else .ok t.changes

/-- `TransactionList::put` (lines 110-122): same double failure mode; on
success the stored change set is replaced. -/
def TransactionList.put (l : List (TxId × TransactionR)) (conn : ConnId) (tx_id : TxId)
    (changes : ChangeSet) : Except Err (List (TxId × TransactionR)) :=
  match txLookup tx_id l with
  | none => .error .ENOENT
  | some t =>
    if t.conn ≠ conn then .error .ENOENT
    else .ok (txReplace tx_id { t with changes := changes } l)

/-- `TransactionList::end` (lines 134-171).  The source checks the entry
twice — a `get` with an ownership test, then a `remove` with the same test —
before matching on the status: `Success` calls `store.apply` (whose `None`
result, a conflicting commit, is forwarded as `Ok(None)`), `Failure` yields
`Ok(None)`.  The embedding returns the updated registry and store alongside
the source's `Result<Option<Vec<AppliedChange>>>`. -/
def TransactionList.endTx (l : List (TxId × TransactionR)) (s : Store) (conn : ConnId)
    (tx_id : TxId) (success : TransactionStatus) :
    Except Err (List (TxId × TransactionR) × Store × Option (List AppliedChange)) :=
  match txLookup tx_id l with
  | none => .error .ENOENT
  | some t0 =>
    if t0.conn ≠ conn then .error .ENOENT
    else
      match txLookup tx_id l with
      | none => .error .ENOENT
      | some t =>
        if t.conn ≠ conn then .error .ENOENT
        else
          let l2 := txRemoveKey tx_id l
          match success with
          | .Success =>
            match s.apply t.changes with
            | some (s2, applied) => .ok (l2, s2, some applied)
            | none => .ok (l2, s, none)
          | .Failure => .ok (l2, s, none)

/-! ## Wire codec (`src/libxenstore/src/wire.rs`) -/

abbrev Bytes := List Nat

/-- Little-endian u32 from four bytes. -/
def u32le (b0 b1 b2 b3 : Nat) : Nat := b0 + 256 * (b1 + 256 * (b2 + 256 * b3))

structure HeaderW where
  msg_type : Nat
  req_id : ReqId
  tx_id : TxId
  len : Nat
  deriving DecidableEq, Repr

/-- `Header::parse` (libxenstore, lines 102-118): an `io::Error` below 16
bytes, otherwise four little-endian u32 reads. -/
def HeaderW.parse (bytes : Bytes) : Except Unit HeaderW :=
  match bytes with
  | b0 :: b1 :: b2 :: b3 :: b4 :: b5 :: b6 :: b7 ::
    b8 :: b9 :: b10 :: b11 :: b12 :: b13 :: b14 :: b15 :: _ =>
    .ok ⟨u32le b0 b1 b2 b3, u32le b4 b5 b6 b7, u32le b8 b9 b10 b11, u32le b12 b13 b14 b15⟩
  | _ => .error ()

def splitNulAux : Bytes → Bytes → List Bytes
  | [], cur => [cur.reverse]
  | b :: rest, cur => if b = 0 then cur.reverse :: splitNulAux rest [] else splitNulAux rest (b :: cur)

/-- Split a byte string at NUL bytes, dropping empty segments (the
`split`/`filter` chain of `Body::parse`). -/
def splitNul (l : Bytes) : List Bytes := (splitNulAux l []).filter (fun f => f ≠ [])

/-- `Body::parse` (libxenstore, lines 153-165): `None` unless the byte count
equals the header's `len`, else the NUL-split fields. -/
def BodyW.parse (header : HeaderW) (body : Bytes) : Option (List Bytes) :=
  if header.len ≠ body.length then none else some (splitNul body)

/-- `wire::Body::len` (libxenstore, lines 182-189): the summed byte length of
the non-empty fields.  (Egress encoders push the separating NUL into each
field themselves.) -/
def bodyLen (b : List Bytes) : Nat := ((b.filter (fun f => f ≠ [])).map (·.length)).sum

inductive DecodeResult
  | NeedMore
  | Done (header : HeaderW) (body : List Bytes)
  | Fail
  | Panic
  deriving DecidableEq, Repr

/-- `XenStoreCodec::decode` (lines 323-345), byte for byte: below 16 bytes
report "need more"; parse the header (its error, impossible here, would be
an I/O failure, `Fail`); report "need more" while `buf.len() < header.len()`
— the source compares against the body length alone, not
`HEADER_SIZE + len`; finally `Body::parse(&header, &buf)` is called on the
*entire* buffer, header bytes included, and its result is `unwrap()`ed:
a `None` is a panic. -/
def XenStoreCodec.decode (buf : Bytes) : DecodeResult :=
  if buf.length < HEADER_SIZE then .NeedMore
  else
    match HeaderW.parse buf with
    | .error _ => .Fail
    | .ok header =>
      if buf.length < header.len then .NeedMore
      else
        match BodyW.parse header buf with
        | some body => .Done header body
        | none => .Panic

/-! ## Egress messages (`src/libxenstore/src/message/egress.rs`) -/

structure Metadata where
  conn : ConnId
  req_id : ReqId
  tx_id : TxId
  deriving DecidableEq, Repr

/-- ASCII bytes of a string (every string in scope is ASCII). -/
def strBytes (s : String) : Bytes := s.data.map Char.toNat

/-- The provided default `Egress::encode` (lines 27-38): an *empty* body
(`Vec::with_capacity(0)`) and `len = body.len()` = 0. -/
def egress_default_encode (msg_type : Nat) (md : Metadata) : HeaderW × List Bytes :=
  let body : List Bytes := []
  (⟨msg_type, md.req_id, md.tx_id, body.length⟩, body)

/-- `egress::ErrorMsg` (lines 247-269): carries the request metadata and the
error's `description()` string. -/
structure ErrorMsg where
  md : Metadata
  err : String
  deriving DecidableEq, Repr

/-- `ErrorMsg::from`. -/
def ErrorMsg.fromErr (md : Metadata) (e : Err) : ErrorMsg := ⟨md, e.description⟩

/-- `impl Egress for ErrorMsg` supplies `msg_type` and `md` only; `encode`
is the default — so the error name in `self.err` is never written out. -/
def ErrorMsg.encode (m : ErrorMsg) : HeaderW × List Bytes :=
  egress_default_encode XS_ERROR m.md

/-- Modelled from the spec: `WPath::as_bytes`, from the libxenstore `watch`
module which is absent from the dump.  The spec's event body is "the changed
path (or sentinel) followed by the watch's stored token", the sentinels being
the literal strings `@introduceDomain` / `@releaseDomain`; a normal path
renders as its `/`-separated byte string. -/
def wpathBytes : WPath → Bytes
  | .Normal p => strBytes p.render
  | .IntroduceDomain => strBytes "@introduceDomain"
  | .ReleaseDomain => strBytes "@releaseDomain"

structure WatchEvent where
  md : Metadata
  node : WPath
  token : WPath
  deriving DecidableEq, Repr

/-- `WatchEvent::new` (lines 277-289): the fired watch's connection with
`req_id = 0` and `tx_id = 0`, carrying the watch's node and stored token. -/
def WatchEvent.new (w : Watch) : WatchEvent := ⟨⟨w.conn, 0, 0⟩, w.node, w.token⟩

/-- `WatchEvent::encode` (lines 300-321): two fields — node bytes and stored
token bytes — each with a NUL pushed at its end; the header's `len` is
`wire::Body::len` of that body. -/
def WatchEvent.encode (e : WatchEvent) : HeaderW × List Bytes :=
  let body := [wpathBytes e.node ++ [0], wpathBytes e.token ++ [0]]
  (⟨XS_WATCH_EVENT, e.md.req_id, e.md.tx_id, bodyLen body⟩, body)

/-! ## Path parsing (`src/src/path.rs` and `src/libxenstore/src/path.rs`) -/

def splitChars (sep : Char) : List Char → List Char → List (List Char)
  | [], cur => [cur.reverse]
  | c :: rest, cur =>
    if c = sep then cur.reverse :: splitChars sep rest [] else splitChars sep rest (c :: cur)

/-- Components of a path string: split at `/`, dropping empty segments
(what `PathBuf::components` yields on the canonical paths in scope). -/
def splitPath (s : String) : List String :=
  ((splitChars '/' s.data []).filter (fun f => f ≠ [])).map (fun f => String.mk f)

/-- Does the string begin with `/` (`PathBuf::is_absolute` for these paths)? -/
def startsWithSlash (s : String) : Bool :=
  match s.data with
  | c :: _ => c = '/'
  | [] => false

/-- Does the string end with `/`? -/
def endsWithSlash (s : String) : Bool :=
  match s.data.getLast? with
  | some c => c = '/'
  | none => false

/-- Does the string contain `//`? -/
def hasDoubleSlash : List Char → Bool
  | [] => false
  | [_] => false
  | c :: d :: rest => (c = '/' && d = '/') || hasDoubleSlash (d :: rest)

/-- `get_domain_path`. -/
def get_domain_path (dom_id : DomainId) : Path := ["local", "domain", toString dom_id]

/-- `Path::try_from` of `src/src/path.rs` (lines 66-79): no validation; an
absolute string is taken as is, a relative one is pushed onto
`/local/domain/<dom>/`. -/
def Path.try_from (dom_id : DomainId) (s : String) : Except Err Path :=
  if startsWithSlash s then .ok (splitPath s)
  else .ok (get_domain_path dom_id ++ splitPath s)

/-- `Path::try_from` of `src/libxenstore/src/path.rs` (lines 70-107): rejects
the empty string, doubled `/`, trailing `/` (except the root), and enforces
the 3072/2048 length caps before the same absolute/relative split. -/
def Path.try_from_lib (dom_id : DomainId) (s : String) : Except Err Path :=
  if s = "" then .error .EINVAL
  else if hasDoubleSlash s.data then .error .EINVAL
  else if s ≠ "/" ∧ endsWithSlash s = true then .error .EINVAL
  else if startsWithSlash s then
    if s.data.length > 3072 then .error .EINVAL else .ok (splitPath s)
  else
    if s.data.length > 2048 then .error .EINVAL
    else .ok (get_domain_path dom_id ++ splitPath s)

/-- `WPath::try_from` of `src/src/watch.rs` (lines 33-41): the two sentinel
strings, otherwise a normal path via `Path::try_from`. -/
def WPath.try_from (dom_id : DomainId) (s : String) : Except Err WPath :=
  if s = "@introduceDomain" then .ok .IntroduceDomain
  else if s = "@releaseDomain" then .ok .ReleaseDomain
  else (Path.try_from dom_id s).map .Normal

/-- `WPath::try_from` as used by the libxenstore ingress parser (that crate's
`watch.rs` is absent from the dump; the shape is that of
`src/src/watch.rs`, over the validating libxenstore path parser). -/
def WPath.try_from_lib (dom_id : DomainId) (s : String) : Except Err WPath :=
  if s = "@introduceDomain" then .ok .IntroduceDomain
  else if s = "@releaseDomain" then .ok .ReleaseDomain
  else (Path.try_from_lib dom_id s).map .Normal

/-! ## Ingress parsing (`src/libxenstore/src/message/ingress.rs`)

Body fields are modelled as strings: `to_strs` (UTF-8 validation of each
field, `EINVAL` on invalid bytes) sits upstream of every branch below and
none of the checked claims turns on it. -/

inductive IngressMsg
  | Directory (md : Metadata) (path : Path)
  | Read (md : Metadata) (path : Path)
  | GetPerms (md : Metadata) (path : Path)
  | Mkdir (md : Metadata) (path : Path)
  | Remove (md : Metadata) (path : Path)
  | Write (md : Metadata) (path : Path) (rest : List String)
  | SetPerms (md : Metadata) (path : Path) (rest : List String)
  | TransactionEnd (md : Metadata) (value : Bool)
  | Watch (md : Metadata) (node : WPath) (token : WPath)
  | Unwatch (md : Metadata) (node : WPath) (token : WPath)
  | TransactionStart (md : Metadata)
  | Release (md : Metadata)
  | GetDomainPath (md : Metadata)
  | Resume (md : Metadata)
  | Restrict (md : Metadata)
  | ErrorMsgIn (md : Metadata) (err : Err)
  deriving DecidableEq, Repr

/-- `to_path_str` (lines 179-193): `EINVAL` unless exactly one field. -/
def to_path_str (strs : List String) : Except Err String :=
  match strs with
  | [s] => .ok s
  | _ => .error .EINVAL

/-- `parse_path_only` (lines 195-202). -/
def parse_path_only (mk : Metadata → Path → IngressMsg) (md : Metadata)
    (strs : List String) : Except Err IngressMsg :=
  match to_path_str strs with
  | .error e => .error e
  | .ok s => (Path.try_from_lib md.conn.dom_id s).map (mk md)

/-- `parse_wpaths` (lines 204-215): indexes `strs[0]` and `strs[1]` with
*no* length check — with fewer than two fields the Rust code panics
(index out of bounds), modelled as `none`. -/
def parse_wpaths (mk : Metadata → WPath → WPath → IngressMsg) (md : Metadata)
    (strs : List String) : Option (Except Err IngressMsg) :=
  match strs[0]?, strs[1]? with
  | some s0, some s1 =>
    some
      (match WPath.try_from_lib md.conn.dom_id s0 with
       | .error e => .error e
       | .ok node =>
         match WPath.try_from_lib md.conn.dom_id s1 with
         | .error e => .error e
         | .ok token => .ok (mk md node token))
  | _, _ => none

/-- `parse_path_rest` (lines 217-241): `EINVAL` below two fields, else a
path and the remaining fields. -/
def parse_path_rest (mk : Metadata → Path → List String → IngressMsg) (md : Metadata)
    (strs : List String) : Except Err IngressMsg :=
  if strs.length < 2 then .error .EINVAL
  else
    match strs with
    | [] => .error .EINVAL
    | s0 :: rest => (Path.try_from_lib md.conn.dom_id s0).map (fun p => mk md p rest)

/-- `parse_path_bool` (lines 243-260): `EINVAL` unless exactly one field;
the value is the comparison with `"T"`. -/
def parse_path_bool (mk : Metadata → Bool → IngressMsg) (md : Metadata)
    (strs : List String) : Except Err IngressMsg :=
  match strs with
  | [s] => .ok (mk md (s = "T"))
  | _ => .error .EINVAL

/-- `parse` (lines 268-308): dispatch on `msg_type`; unknown types give
`EINVAL`; any parse error is absorbed into an `ErrorMsg` request
(`unwrap_or_else`).  A panic inside a parser (`none`) propagates — there is
no `ErrorMsg` for it. -/
def parseMsg (conn : ConnId) (header : HeaderW) (strs : List String) : Option IngressMsg :=
  let md : Metadata := ⟨conn, header.req_id, header.tx_id⟩
  let msg : Option (Except Err IngressMsg) :=
    if header.msg_type = XS_DIRECTORY then some (parse_path_only .Directory md strs)
    else if header.msg_type = XS_READ then some (parse_path_only .Read md strs)
    else if header.msg_type = XS_WRITE then some (parse_path_rest .Write md strs)
    else if header.msg_type = XS_GET_PERMS then some (parse_path_only .GetPerms md strs)
    else if header.msg_type = XS_SET_PERMS then some (parse_path_rest .SetPerms md strs)
    else if header.msg_type = XS_MKDIR then some (parse_path_only .Mkdir md strs)
    else if header.msg_type = XS_RM then some (parse_path_only .Remove md strs)
    else if header.msg_type = XS_WATCH then parse_wpaths .Watch md strs
    else if header.msg_type = XS_UNWATCH then parse_wpaths .Unwatch md strs
    else if header.msg_type = XS_TRANSACTION_START then some (.ok (.TransactionStart md))
    else if header.msg_type = XS_TRANSACTION_END then some (parse_path_bool .TransactionEnd md strs)
    else if header.msg_type = XS_RELEASE then some (.ok (.Release md))
    else if header.msg_type = XS_GET_DOMAIN_PATH then some (.ok (.GetDomainPath md))
    else if header.msg_type = XS_RESUME then some (.ok (.Resume md))
    else if header.msg_type = XS_RESTRICT then some (.ok (.Restrict md))
    else some (.error .EINVAL)
  msg.map (fun m =>
    match m with
    | .ok v => v
    | .error e => .ErrorMsgIn md e)

/-! ## The TRANSACTION_END handler (`src/libxenstore/src/message/mod.rs`) -/

inductive EgressR
  | TransactionEndAck (md : Metadata)
  | ErrorReply (md : Metadata) (err : String)
  deriving DecidableEq, Repr

/-- `message::Response`: a reply plus an optional set of watches to fire. -/
structure ResponseR where
  msg : EgressR
  watch_events : Option (List Watch)
  deriving DecidableEq, Repr

/-- `ProcessMessage for ingress::TransactionEnd` (lines 182-199): map the
`B` field to a status, call `TransactionList::end`, and on `Ok(changes)` —
`changes` being the `Option<Vec<AppliedChange>>`, `None` included — reply
with the success message `egress::TransactionEnd` and the fired watches;
only an `Err` becomes an `ErrorMsg`.  The updated registry and store are
returned alongside. -/
def processTransactionEnd (md : Metadata) (value : Bool)
    (txns : List (TxId × TransactionR)) (s : Store) (watches : List Watch) :
    ResponseR × List (TxId × TransactionR) × Store :=
  let complete : TransactionStatus := if value then .Success else .Failure
  match TransactionList.endTx txns s md.conn md.tx_id complete with
  | .ok (txns2, s2, changes) =>
    let watch_events := WatchList.fire watches changes
    (⟨.TransactionEndAck md, some watch_events⟩, txns2, s2)
  | .error e => (⟨.ErrorReply md e.description, none⟩, txns, s)

/-! ## Concrete fixtures used by the theorems below -/

def conn0 : ConnId := ⟨0, 0⟩

def nodeA : Node := { path := ["a"], value := "1", children := [], permissions := [⟨0, PERM_NONE⟩] }

def nodeB : Node := { path := ["b"], value := "2", children := [], permissions := [⟨0, PERM_NONE⟩] }

/-- A change set opened at generation 0 holding one pending write. -/
def txcs : ChangeSet := { parent := 0, changes := [(["a"], .Write nodeA)] }

/-- The store after a racing commit: generation 1, no longer `txcs.parent`. -/
def s1 : Store := { generation := 1, store := Store.new.store }

/-- A registry holding transaction 7, owned by `conn0`, with `txcs`. -/
def tx7 : List (TxId × TransactionR) := [(7, ⟨conn0, txcs⟩)]

def md1 : Metadata := ⟨conn0, 3, 7⟩

/-! ## The claims -/

/-- C1: a TRANSACTION_END (Success) on a transaction whose parent generation
no longer matches the store's — `Store::apply` refuses the change set — does
*not* produce an `EAGAIN` error reply: `TransactionList::end` forwards the
failed apply as `Ok(None)` and the dispatch handler maps any `Ok` to the
success reply `egress::TransactionEnd` (with no watch events).  The claim's
required behaviour (an `EAGAIN` reply) does not occur. -/
theorem transactionEnd_conflict_success_reply :
    Store.apply s1 txcs = none ∧
    TransactionList.endTx tx7 s1 conn0 7 .Success = .ok ([], s1, none) ∧
    (processTransactionEnd md1 true tx7 s1 []).1 =
      ⟨.TransactionEndAck md1, some []⟩ ∧
    (processTransactionEnd md1 true tx7 s1 []).1.msg ≠
      .ErrorReply md1 (Err.description .EAGAIN) := by
  refine ⟨by decide, by decide, by decide, by decide⟩

/-- C2: the `XS_ERROR` reply for a failed request does carry the request's
`req_id` and `tx_id`, but its body is *empty*: `ErrorMsg` does not override
the default `Egress::encode`, so the stored error name (`"ENOENT"` here) is
dropped instead of being emitted as a NUL-terminated field as the claim
requires. -/
theorem errorMsg_encode_drops_error_name :
    ErrorMsg.encode (ErrorMsg.fromErr ⟨conn0, 7, 9⟩ .ENOENT) = (⟨XS_ERROR, 7, 9, 0⟩, []) ∧
    (ErrorMsg.fromErr ⟨conn0, 7, 9⟩ .ENOENT).err = "ENOENT" ∧
    (ErrorMsg.encode (ErrorMsg.fromErr ⟨conn0, 7, 9⟩ .ENOENT)).2 ≠
      [strBytes "ENOENT" ++ [0]] := by
  refine ⟨by decide, by decide, by decide⟩

/-- C5: a buffer holding exactly one complete frame — a 16-byte header with
`body_len = 0` and no body, so `16 + body_len` bytes are available — makes
`XenStoreCodec::decode` panic instead of returning the `(Header, Body)`
pair: the whole buffer (header included) is handed to `Body::parse`, whose
length check `header.len != buf.len()` fails, and the `None` is
`unwrap()`ed.  (The claimed `body_len > 4096` rejection does not exist in
this decoder either.) -/
theorem codec_decode_panics_on_minimal_frame :
    (List.replicate 16 0).length = HEADER_SIZE + 0 ∧
    XenStoreCodec.decode (List.replicate 16 0) = .Panic := by
  refine ⟨by decide, by decide⟩

/-- C9: request parsing is not total over decoded bodies: an `XS_WATCH`
request whose body decoded to fewer than two fields makes `parse_wpaths`
index `strs[0]` / `strs[1]` out of bounds — a panic (`none`), not the
`EINVAL` error reply the claim requires.  A `XS_WRITE` with the same short
body shows the intended behaviour the watch path misses. -/
theorem parse_watch_missing_fields_panics :
    parseMsg conn0 ⟨XS_WATCH, 1, 0, 0⟩ [] = none ∧
    parseMsg conn0 ⟨XS_WATCH, 1, 0, 0⟩ ["/a"] = none ∧
    parseMsg conn0 ⟨XS_WRITE, 1, 0, 0⟩ ["/a"] =
      some (.ErrorMsgIn ⟨conn0, 1, 0⟩ .EINVAL) := by
  refine ⟨by decide, by decide, by decide⟩

/-! ## C3: apply order -/

/-- The output list of the `Store::apply` loop is the map's entries in
iteration order, appended to the accumulator. -/
theorem applyStep_foldl_snd (entries : List (Path × Change)) :
    ∀ (st : List (Path × Node)) (acc : List AppliedChange),
      (entries.foldl applyStep (st, acc)).2 = acc ++ entries.map Change.toApplied := by
  induction entries with
  | nil => intro st acc; simp
  | cons e rest ih =>
    intro st acc
    obtain ⟨p, c⟩ := e
    cases c with
    | Write n => simp [applyStep, Change.toApplied, ih]
    | Remove n => simp [applyStep, Change.toApplied, ih]

/-- C3 (amended): an accepted changeset is applied entry by entry, one
`AppliedChange` per entry — `Write (p, n)` to `Write(p, n.permissions)`,
`Remove` to `Remove(p)` — in the *map's iteration order*, and the generation
is bumped.  The order is a function of the map's contents
(`changes: HashMap<Path, Change>`), which does not record insertion order,
so the claim's "i-th applied change corresponds to the i-th change inserted"
is not preserved (see the counterexample). -/
theorem apply_emits_changeset_entries :
    ∀ (s : Store) (cs : ChangeSet) (s2 : Store) (l : List AppliedChange),
      Store.apply s cs = some (s2, l) →
      l = cs.changes.map Change.toApplied ∧
      s2.generation = (s.generation + 1) % 2 ^ 64 := by
  intro s cs s2 l h
  unfold Store.apply at h
  split at h
  · exact absurd h (by simp)
  · simp only [Option.some.injEq, Prod.mk.injEq] at h
    refine ⟨?_, ?_⟩
    · rw [← h.2, applyStep_foldl_snd]
      simp
    · rw [← h.1]

/-- The changeset that inserted `nodeB` first, then `nodeA`. -/
def csBA : ChangeSet := ((ChangeSet.new Store.new).insert (.Write nodeB)).insert (.Write nodeA)

/-- The same paths inserted in the opposite order. -/
def csAB : ChangeSet := ((ChangeSet.new Store.new).insert (.Write nodeA)).insert (.Write nodeB)

/-- C3 (counterexample): inserting the change for `/b` before the change for
`/a` produces a changeset *equal* to the one built in the opposite order —
the map forgets insertion order — and `Store::apply` emits the `/a` entry
first, so the applied list does not preserve the insertion order
`[/b, /a]`. -/
theorem apply_insertion_order_counterexample :
    csBA = csAB ∧
    (Store.apply Store.new csBA).map (·.2) =
      some [.Write ["a"] [⟨0, PERM_NONE⟩], .Write ["b"] [⟨0, PERM_NONE⟩]] ∧
    (Store.apply Store.new csBA).map (·.2) ≠
      some [.Write ["b"] [⟨0, PERM_NONE⟩], .Write ["a"] [⟨0, PERM_NONE⟩]] := by
  refine ⟨by decide, by decide, by decide⟩

def csA : ChangeSet := (ChangeSet.new Store.new).insert (.Write nodeA)

def stA : Store := { generation := 1, store := mapInsert ["a"] nodeA Store.new.store }

/-- Witness for C3's amended theorem at a concrete accepted changeset. -/
theorem apply_emits_changeset_entries_witness :
    Store.apply Store.new csA = some (stA, [.Write ["a"] [⟨0, PERM_NONE⟩]]) ∧
    [AppliedChange.Write ["a"] [⟨0, PERM_NONE⟩]] = csA.changes.map Change.toApplied :=
  ⟨by decide,
   (apply_emits_changeset_entries Store.new csA stA
      [.Write ["a"] [⟨0, PERM_NONE⟩]] (by decide)).1⟩

/-! ## C4: watch event encoding -/

theorem bodyLen_pair (x y : Bytes) :
    bodyLen [x ++ [0], y ++ [0]] = x.length + 1 + (y.length + 1) := by
  have hx : (x ++ [0] : Bytes) ≠ [] := by simp
  have hy : (y ++ [0] : Bytes) ≠ [] := by simp
  simp [bodyLen, List.filter_cons, hx, hy]

/-- C4 (amended): every fired watch is encoded as an `XS_WATCH_EVENT` with
`req_id = 0`, `tx_id = 0` and a body of exactly two NUL-terminated fields —
the watch's node followed by the watch's *stored* token, with the header
length covering both fields.  The stored token is the client's token string
parsed as a `WPath` at registration time (see the counterexample), so only
absolute-path and sentinel tokens are echoed verbatim. -/
theorem watch_event_encoding :
    ∀ w : Watch,
      (WatchEvent.new w).md.req_id = 0 ∧
      (WatchEvent.new w).md.tx_id = 0 ∧
      WatchEvent.encode (WatchEvent.new w) =
        (⟨XS_WATCH_EVENT, 0, 0,
            (wpathBytes w.node).length + 1 + ((wpathBytes w.token).length + 1)⟩,
         [wpathBytes w.node ++ [0], wpathBytes w.token ++ [0]]) := by
  intro w
  refine ⟨rfl, rfl, ?_⟩
  simp [WatchEvent.encode, WatchEvent.new, bodyLen_pair]

/-- C4 (counterexample): a watch registered by Dom0 with the token string
`"tok"` stores the token as the *path* `/local/domain/0/tok`
(`WPath::try_from` rewrites relative strings), and the fired event echoes
those bytes — not the supplied bytes `"tok"`. -/
theorem watch_token_not_verbatim_counterexample :
    WPath.try_from 0 "tok" = .ok (.Normal ["local", "domain", "0", "tok"]) ∧
    (WatchEvent.encode (WatchEvent.new
        ⟨conn0, .Normal ["a"], .Normal ["local", "domain", "0", "tok"]⟩)).2 =
      [strBytes "/a" ++ [0], strBytes "/local/domain/0/tok" ++ [0]] ∧
    strBytes "/local/domain/0/tok" ≠ strBytes "tok" := by
  refine ⟨by decide, by decide, by decide⟩

/-! ## C6: transaction ownership -/

/-- C6: `get`, `put` and `end` on the transaction registry all fail with
`ENOENT` both when the transaction id is unknown and when the recorded owner
connection differs from the caller's — the same error constructor, hence the
same wire error code, in either case. -/
theorem transaction_ops_unknown_or_foreign_enoent :
    ∀ (l : List (TxId × TransactionR)) (s : Store) (conn : ConnId) (tx_id : TxId)
      (st : TransactionStatus) (cs : ChangeSet),
      (txLookup tx_id l = none ∨ ∃ t, txLookup tx_id l = some t ∧ t.conn ≠ conn) →
      TransactionList.get l conn tx_id = .error .ENOENT ∧
      TransactionList.put l conn tx_id cs = .error .ENOENT ∧
      TransactionList.endTx l s conn tx_id st = .error .ENOENT := by
  intro l s conn tx_id st cs h
  rcases h with h | ⟨t, ht, hc⟩
  · simp [TransactionList.get, TransactionList.put, TransactionList.endTx, h]
  · simp [TransactionList.get, TransactionList.put, TransactionList.endTx, ht, hc]

/-- Witness for C6: connection `⟨1, 1⟩` attempting the owner `conn0`'s
transaction 7 (and any id at all on the same registry). -/
theorem transaction_ops_unknown_or_foreign_enoent_witness :
    TransactionList.get tx7 ⟨1, 1⟩ 7 = .error .ENOENT ∧
    TransactionList.put tx7 ⟨1, 1⟩ 7 txcs = .error .ENOENT ∧
    TransactionList.endTx tx7 s1 ⟨1, 1⟩ 7 .Success = .error .ENOENT :=
  transaction_ops_unknown_or_foreign_enoent tx7 s1 ⟨1, 1⟩ 7 .Success txcs
    (Or.inr ⟨⟨conn0, txcs⟩, by decide, by decide⟩)

/-! ## C8: watch matching -/

/-- C8: a `Write(p, perms)` matches a watch registered on a normal node `w`
exactly when `p` equals `w` (no subtree prefix matching) and the watcher's
domain has read permission under the recorded `perms`.  The hypothesis rules
out the empty permission list, on which the Rust `perms_ok` would panic
(store nodes always carry a non-empty list). -/
theorem watch_matches_exact_and_readable :
    ∀ (conn : ConnId) (tok : WPath) (wp p : Path) (perms : List Permission),
      perms ≠ [] →
      Watch.matches ⟨conn, .Normal wp, tok⟩ (.Write p perms) =
        (decide (p = wp) && perms_ok conn.dom_id perms PERM_READ) := by
  intro conn tok wp p perms _
  rfl

/-- Witness for C8: domain 1 watching `/a` against a write to the strict
descendant `/a/b` — `is_child` would hold, yet the watch does not match. -/
theorem watch_matches_exact_and_readable_witness :
    ([⟨1, PERM_READ⟩] : List Permission) ≠ [] ∧
    Watch.matches ⟨⟨5, 1⟩, .Normal ["a"], .Normal ["t"]⟩ (.Write ["a", "b"] [⟨1, PERM_READ⟩]) =
      (decide ((["a", "b"] : Path) = ["a"]) && perms_ok 1 [⟨1, PERM_READ⟩] PERM_READ) :=
  ⟨by decide,
   watch_matches_exact_and_readable ⟨5, 1⟩ (.Normal ["t"]) ["a"] ["a", "b"]
     [⟨1, PERM_READ⟩] (by decide)⟩

/-! ## C10: overlay map facts -/

theorem charEqOfToNatEq {c d : Char} (h : c.toNat = d.toNat) : c = d :=
  Char.eq_of_val_eq (UInt32.ext h)

theorem strLtAux_irrefl : ∀ l : List Char, strLtAux l l = false := by
  intro l
  induction l with
  | nil => rfl
  | cons c cs ih => simp [strLtAux, ih]

theorem strLtAux_trans :
    ∀ a b c : List Char, strLtAux a b = true → strLtAux b c = true → strLtAux a c = true := by
  intro a
  induction a with
  | nil =>
    intro b c hab hbc
    cases b with
    | nil => simp [strLtAux] at hab
    | cons q qs =>
      cases c with
      | nil => simp [strLtAux] at hbc
      | cons r rs => rfl
  | cons p ps ih =>
    intro b c hab hbc
    cases b with
    | nil => simp [strLtAux] at hab
    | cons q qs =>
      cases c with
      | nil => simp [strLtAux] at hbc
      | cons r rs =>
        simp only [strLtAux] at hab hbc ⊢
        by_cases h1 : p.toNat = q.toNat <;> by_cases h2 : q.toNat = r.toNat
        · rw [if_pos h1] at hab
          rw [if_pos h2] at hbc
          rw [if_pos (h1.trans h2)]
          exact ih qs rs hab hbc
        · rw [if_pos h1] at hab
          rw [if_neg h2] at hbc
          rw [if_neg (h1 ▸ h2), h1]
          exact hbc
        · rw [if_neg h1] at hab
          rw [if_pos h2] at hbc
          rw [if_neg (h2 ▸ h1), ← h2]
          exact hab
        · rw [if_neg h1] at hab
          rw [if_neg h2] at hbc
          have hpq := of_decide_eq_true hab
          have hqr := of_decide_eq_true hbc
          have hpr := Nat.lt_trans hpq hqr
          rw [if_neg (Nat.ne_of_lt hpr)]
          exact decide_eq_true hpr

theorem strLtAux_total :
    ∀ a b : List Char, a ≠ b → strLtAux a b = true ∨ strLtAux b a = true := by
  intro a
  induction a with
  | nil =>
    intro b hne
    cases b with
    | nil => exact absurd rfl hne
    | cons y ys => exact Or.inl rfl
  | cons x xs ih =>
    intro b hne
    cases b with
    | nil => exact Or.inr rfl
    | cons y ys =>
      by_cases h : x.toNat = y.toNat
      · have hxy : x = y := charEqOfToNatEq h
        subst hxy
        have hs : xs ≠ ys := fun he => hne (by rw [he])
        rcases ih ys hs with h1 | h1
        · exact Or.inl (by simp [strLtAux, h1])
        · exact Or.inr (by simp [strLtAux, h1])
      · rcases Nat.lt_or_ge x.toNat y.toNat with hlt | hge
        · exact Or.inl (by simp [strLtAux, h, hlt])
        · have hgt : y.toNat < x.toNat := Nat.lt_of_le_of_ne hge (Ne.symm h)
          exact Or.inr (by simp [strLtAux, Ne.symm h, hgt])

theorem strLt_irrefl (s : String) : strLt s s = false := strLtAux_irrefl s.data

theorem strLt_trans {a b c : String} (h1 : strLt a b = true) (h2 : strLt b c = true) :
    strLt a c = true := strLtAux_trans a.data b.data c.data h1 h2

theorem strDataInj {a b : String} (h : a.data = b.data) : a = b := by
  cases a
  cases b
  exact congrArg String.mk h

theorem strLt_total {a b : String} (h : a ≠ b) : strLt a b = true ∨ strLt b a = true :=
  strLtAux_total a.data b.data (fun hd => h (strDataInj hd))

theorem strLt_asymm {a b : String} (h1 : strLt a b = true) (h2 : strLt b a = true) : False := by
  have := strLt_trans h1 h2
  rw [strLt_irrefl] at this
  exact Bool.false_ne_true this

theorem pathLt_irrefl : ∀ p : Path, pathLt p p = false := by
  intro p
  induction p with
  | nil => rfl
  | cons a as_ ih => simp [pathLt, ih]

theorem pathLt_trans :
    ∀ a b c : Path, pathLt a b = true → pathLt b c = true → pathLt a c = true := by
  intro a
  induction a with
  | nil =>
    intro b c hab hbc
    cases b with
    | nil => simp [pathLt] at hab
    | cons q qs =>
      cases c with
      | nil => simp [pathLt] at hbc
      | cons r rs => rfl
  | cons p ps ih =>
    intro b c hab hbc
    cases b with
    | nil => simp [pathLt] at hab
    | cons q qs =>
      cases c with
      | nil => simp [pathLt] at hbc
      | cons r rs =>
        simp only [pathLt] at hab hbc ⊢
        by_cases h1 : p = q <;> by_cases h2 : q = r
        · rw [if_pos h1] at hab
          rw [if_pos h2] at hbc
          rw [if_pos (h1.trans h2)]
          exact ih qs rs hab hbc
        · rw [if_pos h1] at hab
          rw [if_neg h2] at hbc
          rw [if_neg (h1 ▸ h2), h1]
          exact hbc
        · rw [if_neg h1] at hab
          rw [if_pos h2] at hbc
          rw [if_neg (h2 ▸ h1), ← h2]
          exact hab
        · rw [if_neg h1] at hab
          rw [if_neg h2] at hbc
          have hpr := strLt_trans hab hbc
          have hne : p ≠ r := by
            intro he
            subst he
            exact strLt_asymm hab hbc
          rw [if_neg hne]
          exact hpr

theorem pathLt_total : ∀ a b : Path, a ≠ b → pathLt a b = true ∨ pathLt b a = true := by
  intro a
  induction a with
  | nil =>
    intro b hne
    cases b with
    | nil => exact absurd rfl hne
    | cons y ys => exact Or.inl rfl
  | cons x xs ih =>
    intro b hne
    cases b with
    | nil => exact Or.inr rfl
    | cons y ys =>
      by_cases h : x = y
      · subst h
        have hs : xs ≠ ys := fun he => hne (by rw [he])
        rcases ih ys hs with h1 | h1
        · exact Or.inl (by simp [pathLt, h1])
        · exact Or.inr (by simp [pathLt, h1])
      · rcases strLt_total h with h1 | h1
        · exact Or.inl (by simp [pathLt, h, h1])
        · exact Or.inr (by simp [pathLt, Ne.symm h, h1])

theorem mapGet_insert_self {α : Type} (k : Path) (v : α) :
    ∀ m : List (Path × α), mapGet k (mapInsert k v m) = some v := by
  intro m
  induction m with
  | nil => simp [mapInsert, mapGet, List.find?]
  | cons e rest ih =>
    obtain ⟨k2, v2⟩ := e
    by_cases hk : k = k2
    · simp [mapInsert, mapGet, hk, List.find?]
    · by_cases hlt : pathLt k k2 = true
      · simp [mapInsert, mapGet, hk, hlt, List.find?]
      · simp only [mapInsert, if_neg hk, if_neg hlt]
        simp only [mapGet, List.find?] at ih ⊢
        rw [show (decide (k2 = k)) = false from decide_eq_false (Ne.symm hk)]
        exact ih

theorem mapGet_insert_ne {α : Type} {q k : Path} (hne : q ≠ k) (v : α) :
    ∀ m : List (Path × α), mapGet q (mapInsert k v m) = mapGet q m := by
  intro m
  induction m with
  | nil => simp [mapInsert, mapGet, List.find?, Ne.symm hne]
  | cons e rest ih =>
    obtain ⟨k2, v2⟩ := e
    by_cases hk : k = k2
    · subst hk
      simp [mapInsert, mapGet, List.find?, Ne.symm hne]
    · by_cases hlt : pathLt k k2 = true
      · simp [mapInsert, mapGet, hk, hlt, List.find?, Ne.symm hne]
      · simp only [mapInsert, if_neg hk, if_neg hlt]
        by_cases hq : k2 = q
        · simp [mapGet, List.find?_cons, hq]
        · simp only [mapGet, List.find?_cons, decide_eq_false hq] at ih ⊢
          simpa using ih

theorem mapInsert_collapse {α : Type} (k : Path) (v1 v2 : α) :
    ∀ m : List (Path × α), mapInsert k v2 (mapInsert k v1 m) = mapInsert k v2 m := by
  intro m
  induction m with
  | nil => simp only [mapInsert, if_pos rfl, if_true]
  | cons e rest ih =>
    obtain ⟨k2, w⟩ := e
    by_cases hk : k = k2
    · simp only [mapInsert, if_pos hk, if_pos rfl, if_true]
    · by_cases hlt : pathLt k k2 = true
      · simp only [mapInsert, if_neg hk, if_pos hlt, if_pos rfl, if_true]
      · simp only [mapInsert, if_neg hk, if_neg hlt, ih]

theorem mem_mapInsert_key {α : Type} (k : Path) (v : α) :
    ∀ (m : List (Path × α)) (e : Path × α),
      e ∈ mapInsert k v m → e.1 = k ∨ e.1 ∈ m.map Prod.fst := by
  intro m
  induction m with
  | nil =>
    intro e he
    have h1 : e ∈ [(k, v)] := he
    exact Or.inl (by rw [List.mem_singleton.mp h1])
  | cons e2 rest ih =>
    obtain ⟨k2, v2⟩ := e2
    intro e he
    by_cases hk : k = k2
    · rw [show mapInsert k v ((k2, v2) :: rest) = (k, v) :: rest from by
        simp only [mapInsert, if_pos hk]] at he
      rcases List.mem_cons.mp he with h | h
      · exact Or.inl (by rw [h])
      · exact Or.inr (List.mem_map.mpr ⟨e, List.mem_cons_of_mem _ h, rfl⟩)
    · by_cases hlt : pathLt k k2 = true
      · rw [show mapInsert k v ((k2, v2) :: rest) = (k, v) :: (k2, v2) :: rest from by
          simp only [mapInsert, if_neg hk, if_pos hlt]] at he
        rcases List.mem_cons.mp he with h | h
        · exact Or.inl (by rw [h])
        · exact Or.inr (List.mem_map.mpr ⟨e, h, rfl⟩)
      · rw [show mapInsert k v ((k2, v2) :: rest) = (k2, v2) :: mapInsert k v rest from by
          simp only [mapInsert, if_neg hk, if_neg hlt]] at he
        rcases List.mem_cons.mp he with h | h
        · refine Or.inr ?_
          rw [h]
          exact List.mem_map.mpr ⟨(k2, v2), List.mem_cons_self _ _, rfl⟩
        · rcases ih e h with h2 | h2
          · exact Or.inl h2
          · exact Or.inr (List.mem_cons_of_mem _ h2)

/-- Well-formedness of the map model: entries strictly sorted by key. -/
def mapWF {α : Type} (m : List (Path × α)) : Prop :=
  m.Pairwise (fun e1 e2 => pathLt e1.1 e2.1 = true)

theorem mapInsert_wf {α : Type} (k : Path) (v : α) :
    ∀ m : List (Path × α), mapWF m → mapWF (mapInsert k v m) := by
  intro m
  induction m with
  | nil =>
    intro _
    simp [mapInsert, mapWF]
  | cons e rest ih =>
    obtain ⟨k2, v2⟩ := e
    intro hwf
    rw [mapWF, List.pairwise_cons] at hwf
    obtain ⟨hhead, hrest⟩ := hwf
    by_cases hk : k = k2
    · simp only [mapInsert, if_pos hk]
      rw [mapWF, List.pairwise_cons]
      exact ⟨fun e2 he => hk ▸ hhead e2 he, hrest⟩
    · by_cases hlt : pathLt k k2 = true
      · simp only [mapInsert, if_neg hk, if_pos hlt]
        rw [mapWF, List.pairwise_cons]
        refine ⟨?_, ?_⟩
        · intro e2 he
          rcases List.mem_cons.mp he with h | h
          · subst h
            exact hlt
          · exact pathLt_trans _ _ _ hlt (hhead e2 h)
        · rw [List.pairwise_cons]
          exact ⟨hhead, hrest⟩
      · simp only [mapInsert, if_neg hk, if_neg hlt]
        rw [mapWF, List.pairwise_cons]
        refine ⟨?_, ih hrest⟩
        intro e2 he
        rcases mem_mapInsert_key k v rest e2 he with h | h
        · rw [h]
          rcases pathLt_total k k2 hk with h2 | h2
          · exact absurd h2 hlt
          · exact h2
        · rcases List.mem_map.mp h with ⟨e3, he3, hfst⟩
          rw [← hfst]
          exact hhead e3 he3

theorem mapWF_nodup {α : Type} : ∀ m : List (Path × α), mapWF m → keysNodup m := by
  intro m hwf
  rw [keysNodup, List.Nodup, List.pairwise_map]
  refine List.Pairwise.imp ?_ hwf
  intro a b hab he
  rw [he, pathLt_irrefl] at hab
  exact Bool.false_ne_true hab

/-- C10: within one changeset every path maps to at most one pending change —
inserting for a path that already has an entry replaces it (a write followed
by a remove of the same path leaves only the `Remove`), and overlay reads see
only the latest recorded change: a pending `Remove` yields `ENOENT` even when
the node exists in the backing store, a pending `Write n` yields `n` (after
the permission check). -/
theorem changeset_latest_change_wins :
    ∀ (cs : ChangeSet) (c1 c2 : Change) (q : Path) (s : Store) (dom_id : DomainId)
      (perm : Nat) (n : Node),
      (mapWF cs.changes → mapWF ((cs.insert c1).changes) ∧ keysNodup ((cs.insert c1).changes)) ∧
      (c1.path = c2.path → ((cs.insert c1).insert c2).changes = (cs.insert c2).changes) ∧
      mapGet c1.path ((cs.insert c1).changes) = some c1 ∧
      (q ≠ c1.path → mapGet q ((cs.insert c1).changes) = mapGet q cs.changes) ∧
      Store.get_node s (cs.insert (.Remove n)) dom_id n.path perm = .error .ENOENT ∧
      Store.get_node s (cs.insert (.Write n)) dom_id n.path perm =
        (if perms_ok dom_id n.permissions perm then .ok n else .error .EACCES) := by
  intro cs c1 c2 q s dom_id perm n
  refine ⟨?_, ?_, ?_, ?_, ?_, ?_⟩
  · intro hwf
    have h1 := mapInsert_wf c1.path c1 cs.changes hwf
    exact ⟨h1, mapWF_nodup _ h1⟩
  · intro hp
    show mapInsert c2.path c2 (mapInsert c1.path c1 cs.changes) = mapInsert c2.path c2 cs.changes
    rw [hp]
    exact mapInsert_collapse c2.path c1 c2 cs.changes
  · exact mapGet_insert_self c1.path c1 cs.changes
  · intro hq
    exact mapGet_insert_ne hq c1 cs.changes
  · show Store.get_node s (cs.insert (.Remove n)) dom_id n.path perm = .error .ENOENT
    unfold Store.get_node
    rw [show (cs.insert (.Remove n)).changes = mapInsert n.path (.Remove n) cs.changes from rfl,
        mapGet_insert_self]
  · unfold Store.get_node
    rw [show (cs.insert (.Write n)).changes = mapInsert n.path (.Write n) cs.changes from rfl,
        mapGet_insert_self]
    by_cases hp : perms_ok dom_id n.permissions perm
    · simp [hp]
    · simp [hp]

def cs0 : ChangeSet := ChangeSet.new Store.new

/-- Witness for C10 at a concrete changeset: a write of `/a` followed by a
remove of `/a` (only the `Remove` is left), a read at the untouched `/z`,
over the initial store. -/
theorem changeset_latest_change_wins_witness :
    (mapWF ((cs0.insert (.Write nodeA)).changes) ∧
      keysNodup ((cs0.insert (.Write nodeA)).changes)) ∧
    ((cs0.insert (.Write nodeA)).insert (.Remove nodeA)).changes =
      (cs0.insert (.Remove nodeA)).changes ∧
    mapGet ["a"] ((cs0.insert (.Write nodeA)).changes) = some (.Write nodeA) ∧
    mapGet ["z"] ((cs0.insert (.Write nodeA)).changes) = mapGet ["z"] cs0.changes ∧
    Store.get_node Store.new (cs0.insert (.Remove nodeA)) 0 ["a"] PERM_READ = .error .ENOENT ∧
    Store.get_node Store.new (cs0.insert (.Write nodeA)) 0 ["a"] PERM_READ =
      (if perms_ok 0 nodeA.permissions PERM_READ then .ok nodeA else .error .EACCES) := by
  have t := changeset_latest_change_wins cs0 (.Write nodeA) (.Remove nodeA) ["z"]
    Store.new 0 PERM_READ nodeA
  exact ⟨t.1 (by simp [mapWF, cs0, ChangeSet.new]), t.2.1 (by decide), t.2.2.1,
    t.2.2.2.1 (by decide), t.2.2.2.2.1, t.2.2.2.2.2⟩

/-! ## C7: node construction -/

theorem childAdded_path (par : Node) (p : Path) : (childAdded par p).path = par.path := by
  unfold childAdded
  cases p.basename <;> rfl

theorem childAdded_value (par : Node) (p : Path) : (childAdded par p).value = par.value := by
  unfold childAdded
  cases p.basename <;> rfl

theorem childAdded_permissions (par : Node) (p : Path) :
    (childAdded par p).permissions = par.permissions := by
  unfold childAdded
  cases p.basename <;> rfl

theorem inheritPerms_idem (dom_id : DomainId) (ps : List Permission) :
    inheritPerms dom_id (inheritPerms dom_id ps) = inheritPerms dom_id ps := by
  unfold inheritPerms
  by_cases h : dom_id ≠ DOM0_DOMAIN_ID
  · simp only [if_pos h]
    cases ps <;> simp [setOwner]
  · simp only [if_neg h]

/-- Invariant of the creation loop: the accumulator is a block of created
nodes (empty value, ancestor-inherited owner-rewritten permissions) in front
of the untouched-but-for-children ancestor; each iteration extends the block
by one node whose path is the processed path. -/
theorem construct_fold_spec (dom_id : DomainId) (P : List Permission) :
    ∀ (ps : List Path) (c : List Node) (a : Node),
      a.permissions = P →
      (∀ n ∈ c, n.value = "" ∧ n.permissions = inheritPerms dom_id P) →
      ∃ (c2 : List Node) (a2 : Node),
        ps.foldl (construct_step dom_id) (c ++ [a]) = c2 ++ [a2] ∧
        a2.permissions = P ∧ a2.path = a.path ∧ a2.value = a.value ∧
        c2.map Node.path = ps.reverse ++ c.map Node.path ∧
        (∀ n ∈ c2, n.value = "" ∧ n.permissions = inheritPerms dom_id P) := by
  intro ps
  induction ps with
  | nil =>
    intro c a ha hc
    exact ⟨c, a, rfl, ha, rfl, rfl, by simp, hc⟩
  | cons p ps1 ih =>
    intro c a ha hc
    rw [List.foldl_cons]
    cases c with
    | nil =>
      have hstep : construct_step dom_id ([] ++ [a]) p =
          ([newNode dom_id p a] ++ [childAdded a p]) := rfl
      rw [hstep]
      have hnode : ∀ n ∈ [newNode dom_id p a],
          n.value = "" ∧ n.permissions = inheritPerms dom_id P := by
        intro n hn
        rw [List.mem_singleton.mp hn]
        exact ⟨rfl, by rw [show (newNode dom_id p a).permissions =
          inheritPerms dom_id a.permissions from rfl, ha]⟩
      obtain ⟨c2, a2, hf, h1, h2, h3, h4, h5⟩ :=
        ih [newNode dom_id p a] (childAdded a p)
          (by rw [childAdded_permissions, ha]) hnode
      refine ⟨c2, a2, hf, h1, ?_, ?_, ?_, h5⟩
      · rw [h2, childAdded_path]
      · rw [h3, childAdded_value]
      · rw [h4]
        simp [List.reverse_cons, newNode]
    | cons n0 c1 =>
      have hstep : construct_step dom_id ((n0 :: c1) ++ [a]) p =
          ((newNode dom_id p n0 :: childAdded n0 p :: c1) ++ [a]) := rfl
      rw [hstep]
      have hn0 := hc n0 (List.mem_cons_self _ _)
      have hnode : ∀ n ∈ newNode dom_id p n0 :: childAdded n0 p :: c1,
          n.value = "" ∧ n.permissions = inheritPerms dom_id P := by
        intro n hn
        rcases List.mem_cons.mp hn with h | h
        · rw [h]
          refine ⟨rfl, ?_⟩
          show inheritPerms dom_id n0.permissions = inheritPerms dom_id P
          rw [hn0.2, inheritPerms_idem]
        · rcases List.mem_cons.mp h with h2 | h2
          · rw [h2, childAdded_value, childAdded_permissions]
            exact hn0
          · exact hc n (List.mem_cons_of_mem _ h2)
      obtain ⟨c2, a2, hf, h1, h2, h3, h4, h5⟩ :=
        ih (newNode dom_id p n0 :: childAdded n0 p :: c1) a ha hnode
      refine ⟨c2, a2, hf, h1, h2, h3, ?_, h5⟩
      rw [h4]
      simp [List.reverse_cons, childAdded_path, newNode]

/-- The head of a non-empty `takeWhile` is the head of the list. -/
theorem takeWhile_head {α : Type} (p : α → Bool) (l : List α)
    (h : l.takeWhile p ≠ []) : (l.takeWhile p).head? = l.head? := by
  cases l with
  | nil => exact absurd rfl h
  | cons x xs =>
    by_cases hx : p x
    · simp [List.takeWhile_cons_of_pos hx]
    · rw [List.takeWhile_cons_of_neg hx] at h
      exact absurd rfl h

/-- The self-then-ancestors iterator starts at the path itself. -/
theorem pathIter_head (p : Path) : (pathIter p).head? = some p := by
  unfold pathIter
  cases h : p.reverse with
  | nil =>
    have hp : p = [] := by
      have h2 := congrArg List.reverse h
      simpa using h2
    subst hp
    rfl
  | cons x rest =>
    show some ((x :: rest).reverse) = some p
    rw [← h, List.reverse_reverse]

/-- C7: whenever `Store::construct_node` succeeds (the construction arm of
`Store::write`), the returned chain splits into the non-empty block of newly
created nodes (deepest first) followed by the nearest existing ancestor:
that ancestor was found writable by `get_node` and is returned with its
path, value and permission list unchanged (only its child set grows); every
created node carries the ancestor's permission list with the owner slot
`[0].id` rewritten to `dom_id` exactly when `dom_id ≠ 0` (`inheritPerms`);
every created node was absent (`ENOENT`) beforehand; the head of the block
is the requested path carrying the supplied value, and every other created
node carries the empty value. -/
theorem construct_node_inheritance :
    ∀ (s : Store) (cs : ChangeSet) (dom_id : DomainId) (path : Path) (value : Value)
      (l : List Node),
      s.construct_node cs dom_id path value = some (.ok l) →
      ∃ (created : List Node) (anc anc0 : Node) (pp : Path),
        l = created ++ [anc] ∧
        created ≠ [] ∧
        s.get_node cs dom_id pp PERM_WRITE = .ok anc0 ∧
        anc.path = anc0.path ∧ anc.value = anc0.value ∧ anc.permissions = anc0.permissions ∧
        (∀ n ∈ created, n.permissions = inheritPerms dom_id anc0.permissions) ∧
        (∀ n ∈ created, isEnoent (s.get_node cs dom_id n.path PERM_WRITE) = true) ∧
        created.head?.map Node.path = some path ∧
        created.head?.map Node.value = some value ∧
        (∀ n ∈ created.tail, n.value = "") := by
  intro s cs dom_id path value l h
  simp only [Store.construct_node] at h
  set ptc := (pathIter path).takeWhile
    (fun p => isEnoent (s.get_node cs dom_id p PERM_WRITE)) with hptcdef
  split at h
  · simp at h
  · next shallowest hlast =>
    split at h
    · simp at h
    · next parent_path hpar =>
      split at h
      · next parent hget =>
        have hptc_ne : ptc ≠ [] := by
          intro he
          rw [he] at hlast
          simp at hlast
        obtain ⟨c2, a2, hf, h1, h2, h3, h4, h5⟩ :=
          construct_fold_spec dom_id parent.permissions ptc.reverse [] parent rfl
            (by intro n hn; exact absurd hn (List.not_mem_nil n))
        have hf2 : ptc.reverse.foldl (construct_step dom_id) [parent] = c2 ++ [a2] := by
          simpa using hf
        rw [hf2] at h
        have hc2paths : c2.map Node.path = ptc := by
          simpa using h4
        have hc2ne : c2 ≠ [] := by
          intro he
          apply hptc_ne
          rw [← hc2paths, he]
          rfl
        cases c2 with
        | nil => exact absurd rfl hc2ne
        | cons m c3 =>
          rw [List.cons_append] at h
          have hl := Except.ok.inj (Option.some.inj h)
          have hmpath : m.path = path := by
            have hh : (ptc : List Path).head? = some path := by
              rw [takeWhile_head _ _ hptc_ne, pathIter_head]
            have hh2 : ((m :: c3).map Node.path).head? = some path := by
              rw [hc2paths]
              exact hh
            simpa using hh2
          refine ⟨{ m with value := value } :: c3, a2, parent, parent_path,
            ?_, by simp, hget, h2, h3, h1, ?_, ?_, ?_, by simp, ?_⟩
          · rw [← hl]
            rfl
          · intro n hn
            rcases List.mem_cons.mp hn with hh | hh
            · rw [hh]
              exact (h5 m (List.mem_cons_self _ _)).2
            · exact (h5 n (List.mem_cons_of_mem _ hh)).2
          · intro n hn
            have hmem : n.path ∈ ptc := by
              rw [← hc2paths]
              rcases List.mem_cons.mp hn with hh | hh
              · rw [hh]
                show m.path ∈ (m :: c3).map Node.path
                exact List.mem_map_of_mem Node.path (List.mem_cons_self m c3)
              · exact List.mem_map_of_mem Node.path (List.mem_cons_of_mem _ hh)
            simpa using List.mem_takeWhile_imp hmem
          · simp [hmpath]
          · intro n hn
            exact (h5 n (List.mem_cons_of_mem _ hn)).1
      · simp at h
      · next e he => simp at h

/-- A node `/d` owned by Dom0 with mode `Read|Write` (value 3). -/
def nodeD : Node := { path := ["d"], value := "", children := [], permissions := [⟨0, 3⟩] }

/-- The initial store with `/d` added. -/
def sw : Store := { generation := 0, store := mapInsert ["d"] nodeD Store.new.store }

/-- Witness for C7: domain 1 writes `/d/x` under the Dom0-owned, writable
`/d`; the created node inherits `/d`'s permission list with the owner slot
rewritten to domain 1. -/
theorem construct_node_inheritance_witness :
    sw.construct_node (ChangeSet.new sw) 1 ["d", "x"] "v" =
      some (.ok [{ path := ["d", "x"], value := "v", children := [], permissions := [⟨1, 3⟩] },
                 { path := ["d"], value := "", children := ["x"], permissions := [⟨0, 3⟩] }]) ∧
    (∃ (created : List Node) (anc anc0 : Node) (pp : Path),
      ([{ path := ["d", "x"], value := "v", children := [], permissions := [⟨1, 3⟩] },
        { path := ["d"], value := "", children := ["x"], permissions := [⟨0, 3⟩] }] :
          List Node) = created ++ [anc] ∧
      created ≠ [] ∧
      sw.get_node (ChangeSet.new sw) 1 pp PERM_WRITE = .ok anc0 ∧
      anc.path = anc0.path ∧ anc.value = anc0.value ∧ anc.permissions = anc0.permissions ∧
      (∀ n ∈ created, n.permissions = inheritPerms 1 anc0.permissions) ∧
      (∀ n ∈ created, isEnoent (sw.get_node (ChangeSet.new sw) 1 n.path PERM_WRITE) = true) ∧
      created.head?.map Node.path = some ["d", "x"] ∧
      created.head?.map Node.value = some "v" ∧
      (∀ n ∈ created.tail, n.value = "")) :=
  ⟨by decide,
   construct_node_inheritance sw (ChangeSet.new sw) 1 ["d", "x"] "v"
     [{ path := ["d", "x"], value := "v", children := [], permissions := [⟨1, 3⟩] },
      { path := ["d"], value := "", children := ["x"], permissions := [⟨0, 3⟩] }]
     (by decide)⟩

end Xenstore
